import Mathlib

/-!
Verification of `password_strength.c` (HadyTinawi/PasswordStrengthMeter).

C strings are modelled as `List Char` (the characters before the NUL
terminator; a valid C string contains no NUL).  Reading index
`length` of a string yields the terminator `'\0'`; reading past it is an
out-of-bounds access, modelled by `Except.error ()`.  `size_t` arithmetic
is modelled exactly, as `Nat` arithmetic modulo `2 ^ 64`.  The `ctype`
classifiers are modelled with their C-locale behaviour on byte values
(non-ASCII code points match no class).
-/

deriving instance DecidableEq for Except

namespace PasswordStrength

/-- Width of `size_t` on the target platform. -/
def sizeTMod : Nat := 2 ^ 64

/-- The NUL terminator byte. -/
def nulChar : Char := Char.ofNat 0

/-- C-locale `isupper`. -/
def isupperC (c : Char) : Bool := 65 ≤ c.toNat && c.toNat ≤ 90

/-- C-locale `islower`. -/
def islowerC (c : Char) : Bool := 97 ≤ c.toNat && c.toNat ≤ 122

/-- C-locale `isdigit`. -/
def isdigitC (c : Char) : Bool := 48 ≤ c.toNat && c.toNat ≤ 57

/-- C-locale `isalpha`. -/
def isalphaC (c : Char) : Bool := isupperC c || islowerC c

/-- C-locale `isalnum`. -/
def isalnumC (c : Char) : Bool := isalphaC c || isdigitC c

/-- C-locale `tolower`: maps an uppercase letter to its lowercase form. -/
def tolowerC (c : Char) : Char :=
  if isupperC c then Char.ofNat (c.toNat + 32) else c

/-- Loop of `containsString`: scan with the current consecutive-letter count. -/
def csAux : List Char → Nat → Bool
  | [], _ => false
  | c :: rest, k =>
      if isalphaC c then
        if 4 ≤ k + 1 then true else csAux rest (k + 1)
      else csAux rest 0

/-- `containsString(pwd)`: true iff the scan finds 4 consecutive letters. -/
def containsString (pwd : List Char) : Bool := csAux pwd 0

/-- `hasUpper(pwd)`. -/
def hasUpper (pwd : List Char) : Bool := pwd.any isupperC

/-- `hasDigit(pwd)`. -/
def hasDigit (pwd : List Char) : Bool := pwd.any isdigitC

/-- `hasLower(pwd)`. -/
def hasLower (pwd : List Char) : Bool := pwd.any islowerC

/-- `hasMinimumLength(pwd)`: `strlen(pwd) >= 8`. -/
def hasMinimumLength (pwd : List Char) : Bool := 8 ≤ pwd.length

/-- `isAlphanumericOnly(pwd)`. -/
def isAlphanumericOnly (pwd : List Char) : Bool := pwd.all isalnumC

/-- Read byte `i` of the C string `s`: in-range characters and the NUL
terminator are defined; any further read is out of bounds. -/
def readC (s : List Char) (i : Nat) : Except Unit Char :=
  if h : i < s.length then .ok (s.get ⟨i, h⟩)
  else if i = s.length then .ok nulChar
  else .error ()

/-- Inner loop of `containsUsername`: compare the remaining username
characters `u` against `password` starting at byte `idx`; `.ok true` means
the whole username matched. -/
def matchFrom (password : List Char) : Nat → List Char → Except Unit Bool
  | _, [] => .ok true
  | idx, c :: rest =>
      match readC password idx with
      | .error e => .error e
      | .ok pc =>
          if tolowerC pc = tolowerC c then matchFrom password (idx + 1) rest
          else .ok false

/-- Outer loop of `containsUsername`: try offsets `i, i+1, …` for
`remaining` iterations (the loop `for (i = 0; i <= bound; i++)` runs
`bound + 1` iterations unless it returns early). -/
def scanFrom (u password : List Char) : Nat → Nat → Except Unit Bool
  | _, 0 => .ok false
  | i, r + 1 =>
      match matchFrom password i u with
      | .error e => .error e
      | .ok true => .ok true
      | .ok false => scanFrom u password (i + 1) r

/-- `containsUsername(username, password)`, modelled exactly: the loop
bound `strlen(password) - strlen(username)` is computed in `size_t`, so it
wraps around when the username is longer than the password. -/
def containsUsernameE (username password : List Char) : Except Unit Bool :=
  if username.length = 0 then .ok false
  else
    scanFrom username password 0
      ((password.length + sizeTMod - username.length) % sizeTMod + 1)

/-- `isStrongPassword(username, password)`.  It calls `containsUsername`,
so it inherits the possible out-of-bounds access. -/
def isStrongPassword (username password : List Char) : Except Unit Bool :=
  if !hasMinimumLength password then .ok false
  else if !hasUpper password || !hasLower password || !hasDigit password then
    .ok false
  else if !isAlphanumericOnly password then .ok false
  else if !containsString password then .ok false
  else
    match containsUsernameE username password with
    | .error e => .error e
    | .ok b => .ok (!b)

/-- `isStrongDefaultPassword(username, password)`; `username` is unused. -/
def isStrongDefaultPassword (username password : List Char) : Bool :=
  if 15 < password.length then false
  else if !hasUpper password || !hasLower password || !hasDigit password then
    false
  else if !isAlphanumericOnly password then false
  else true

/-- The `validCharacters` table of `generateDefaultPassword`. -/
def validCharacters : List Char :=
  "abcdefghijklmnopqrstuvwxyzABCDEFGHIJKLMNOPQRSTUVWXYZ0123456789".data

/-- One candidate produced by the body of the `do`-loop of
`generateDefaultPassword`: `rand() % 15 + 1` characters, each drawn from
`validCharacters`. -/
def generatedCandidate (g : List Char) : Prop :=
  (∀ c ∈ g, c ∈ validCharacters) ∧ 1 ≤ g.length ∧ g.length ≤ 15

/-- An observable output of `generateDefaultPassword(username)`: a
candidate at which the `do … while` loop exits, i.e. one accepted by
`isStrongDefaultPassword`. -/
def generatedOutput (username g : List Char) : Prop :=
  generatedCandidate g ∧ isStrongDefaultPassword username g = true

/-! Specification-side predicates, written from the spec's words. -/

/-- Spec: `p` has a contiguous run of at least 4 letters. -/
def specRun4 (p : List Char) : Prop :=
  ∃ i, i + 4 ≤ p.length ∧ ∀ c ∈ (p.drop i).take 4, isalphaC c = true

/-- Spec: `p` contains `u` as a case-insensitive substring. -/
def ciSubstring (u p : List Char) : Prop :=
  ∃ i, ((p.drop i).take u.length).map tolowerC = u.map tolowerC

/-- Spec conjunction for the Strong policy, as the claim words it. -/
def strongSpec (u p : List Char) : Prop :=
  8 ≤ p.length ∧ (∃ c ∈ p, isupperC c = true) ∧ (∃ c ∈ p, islowerC c = true) ∧
    (∃ c ∈ p, isdigitC c = true) ∧ (∀ c ∈ p, isalnumC c = true) ∧
    specRun4 p ∧ ¬ ciSubstring u p

/-- Spec conjunction for the Default policy, as the claim words it. -/
def defaultSpec (p : List Char) : Prop :=
  p.length ≤ 15 ∧ (∃ c ∈ p, isupperC c = true) ∧ (∃ c ∈ p, islowerC c = true) ∧
    (∃ c ∈ p, isdigitC c = true) ∧ (∀ c ∈ p, isalnumC c = true)

/-! Basic characterisations of the scanning predicates. -/

lemma hasUpper_iff (p : List Char) :
    hasUpper p = true ↔ ∃ c ∈ p, isupperC c = true := by
  simp [hasUpper, List.any_eq_true]

lemma hasLower_iff (p : List Char) :
    hasLower p = true ↔ ∃ c ∈ p, islowerC c = true := by
  simp [hasLower, List.any_eq_true]

lemma hasDigit_iff (p : List Char) :
    hasDigit p = true ↔ ∃ c ∈ p, isdigitC c = true := by
  simp [hasDigit, List.any_eq_true]

lemma isAlphanumericOnly_iff (p : List Char) :
    isAlphanumericOnly p = true ↔ ∀ c ∈ p, isalnumC c = true := by
  simp [isAlphanumericOnly, List.all_eq_true]

lemma hasMinimumLength_iff (p : List Char) :
    hasMinimumLength p = true ↔ 8 ≤ p.length := by
  simp [hasMinimumLength]

/-- The run counter of `csAux` starts a run of letters at the head:
`n` more letters at the front of `l`, with `n` within bounds. -/
def headAlpha (l : List Char) (n : Nat) : Prop :=
  n ≤ l.length ∧ ∀ c ∈ l.take n, isalphaC c = true

lemma headAlpha_specRun4 (l : List Char) : headAlpha l 4 → specRun4 l := by
  rintro ⟨hlen, hall⟩
  exact ⟨0, by simpa using hlen, by simpa using hall⟩

lemma specRun4_cons (x : Char) (l : List Char) :
    specRun4 l → specRun4 (x :: l) := by
  rintro ⟨i, hlen, hall⟩
  refine ⟨i + 1, by simp; omega, ?_⟩
  simpa using hall

lemma csAux_mono (l : List Char) :
    ∀ c c', c ≤ c' → csAux l c = true → csAux l c' = true := by
  induction l with
  | nil => intro c c' _ h; simp [csAux] at h
  | cons x rest ih =>
    intro c c' hcc h
    by_cases hx : isalphaC x = true
    · simp only [csAux, hx, if_true] at h ⊢
      by_cases h4 : 4 ≤ c + 1
      · simp [show 4 ≤ c' + 1 by omega]
      · rw [if_neg h4] at h
        by_cases h4' : 4 ≤ c' + 1
        · simp [h4']
        · rw [if_neg h4']
          exact ih (c + 1) (c' + 1) (by omega) h
    · simp only [csAux, hx] at h ⊢
      simpa using h

lemma csAux_of_headAlpha (l : List Char) :
    ∀ c, c < 4 → headAlpha l (4 - c) → csAux l c = true := by
  induction l with
  | nil => rintro c hc ⟨hlen, _⟩; simp at hlen; omega
  | cons x rest ih =>
    rintro c hc ⟨hlen, hall⟩
    have hsplit : 4 - c = (3 - c) + 1 := by omega
    rw [hsplit, List.take_succ_cons] at hall
    have hx : isalphaC x = true := hall x (List.mem_cons_self x _)
    by_cases h4 : 4 ≤ c + 1
    · simp [csAux, hx, h4]
    · simp only [csAux, hx, if_true, if_neg h4]
      refine ih (c + 1) (by omega) ⟨by simp at hlen; omega, ?_⟩
      intro d hd
      have : 4 - (c + 1) = 3 - c := by omega
      rw [this] at hd
      exact hall d (List.mem_cons_of_mem x hd)

lemma csAux_of_specRun4 (l : List Char) :
    ∀ c, c < 4 → specRun4 l → csAux l c = true := by
  induction l with
  | nil => rintro c hc ⟨i, hlen, _⟩; simp at hlen
  | cons x rest ih =>
    rintro c hc ⟨i, hlen, hall⟩
    cases i with
    | zero =>
      refine csAux_mono _ 0 c (Nat.zero_le c) ?_
      refine csAux_of_headAlpha _ 0 (by omega) ⟨?_, ?_⟩
      · simpa using hlen
      · simpa using hall
    | succ j =>
      have hrest : specRun4 rest := by
        refine ⟨j, by simp at hlen ⊢; omega, ?_⟩
        simpa using hall
      by_cases hx : isalphaC x = true
      · by_cases h4 : 4 ≤ c + 1
        · simp [csAux, hx, h4]
        · simp only [csAux, hx, if_true, if_neg h4]
          exact ih (c + 1) (by omega) hrest
      · simp only [csAux, hx]
        simpa using ih 0 (by omega) hrest

lemma csAux_spec_fwd (l : List Char) :
    ∀ c, c < 4 → csAux l c = true → headAlpha l (4 - c) ∨ specRun4 l := by
  induction l with
  | nil => intro c hc h; simp [csAux] at h
  | cons x rest ih =>
    intro c hc h
    by_cases hx : isalphaC x = true
    · simp only [csAux, hx, if_true] at h
      by_cases h4 : 4 ≤ c + 1
      · left
        have hc3 : c = 3 := by omega
        subst hc3
        refine ⟨by simp, ?_⟩
        intro d hd
        simp at hd
        rwa [hd]
      · rw [if_neg h4] at h
        rcases ih (c + 1) (by omega) h with ⟨hl, ha⟩ | hs
        · left
          refine ⟨by simp; omega, ?_⟩
          have hsplit : 4 - c = (4 - (c + 1)) + 1 := by omega
          rw [hsplit, List.take_succ_cons]
          intro d hd
          rcases List.mem_cons.mp hd with hdx | hdt
          · rwa [hdx]
          · exact ha d hdt
        · right; exact specRun4_cons x rest hs
    · simp only [csAux, hx] at h
      simp at h
      rcases ih 0 (by omega) h with hh | hs
      · right; exact specRun4_cons x rest (headAlpha_specRun4 rest hh)
      · right; exact specRun4_cons x rest hs

lemma containsString_iff (p : List Char) :
    containsString p = true ↔ specRun4 p := by
  unfold containsString
  constructor
  · intro h
    rcases csAux_spec_fwd p 0 (by omega) h with hh | hs
    · exact headAlpha_specRun4 p hh
    · exact hs
  · exact csAux_of_specRun4 p 0 (by omega)

/-! Correctness of the `containsUsername` scan in the in-bounds regime. -/

lemma matchFrom_ok (p : List Char) :
    ∀ (u : List Char) (i : Nat), i + u.length ≤ p.length →
      matchFrom p i u =
        .ok (decide (((p.drop i).take u.length).map tolowerC = u.map tolowerC)) := by
  intro u
  induction u with
  | nil => intro i h; simp [matchFrom]
  | cons c rest ih =>
    intro i h
    have hi : i < p.length := by simp at h; omega
    have hread : readC p i = .ok p[i] := by
      unfold readC
      rw [dif_pos hi]
      simp [List.get_eq_getElem]
    simp only [matchFrom, hread]
    have hdrop : p.drop i = p[i] :: p.drop (i + 1) := List.drop_eq_getElem_cons hi
    rw [hdrop, List.length_cons, List.take_succ_cons, List.map_cons, List.map_cons]
    by_cases hc : tolowerC p[i] = tolowerC c
    · rw [if_pos hc, ih (i + 1) (by simp at h ⊢; omega)]
      simp [hc]
    · rw [if_neg hc]
      simp [hc]

lemma scanFrom_ok (u p : List Char) (hu : u.length ≤ p.length) :
    ∀ (r i : Nat), i + r = p.length - u.length + 1 →
      (scanFrom u p i r = .ok true ↔
        ∃ k, k < r ∧
          ((p.drop (i + k)).take u.length).map tolowerC = u.map tolowerC) ∧
      ∀ e, scanFrom u p i r ≠ .error e := by
  intro r
  induction r with
  | zero =>
    intro i h
    refine ⟨by simp [scanFrom], by intro e; simp [scanFrom]⟩
  | succ r ih =>
    intro i h
    have hib : i + u.length ≤ p.length := by omega
    simp only [scanFrom, matchFrom_ok p u i hib]
    by_cases hm : ((p.drop i).take u.length).map tolowerC = u.map tolowerC
    · rw [decide_eq_true hm]
      refine ⟨?_, by intro e h; simp at h⟩
      simp only [true_iff]
      exact ⟨0, by omega, by simpa using hm⟩
    · rw [decide_eq_false hm]
      refine ⟨?_, (ih (i + 1) (by omega)).2⟩
      rw [(ih (i + 1) (by omega)).1]
      constructor
      · rintro ⟨k, hk, hM⟩
        exact ⟨k + 1, by omega, by rw [show i + (k + 1) = i + 1 + k by omega]; exact hM⟩
      · rintro ⟨k, hk, hM⟩
        cases k with
        | zero => exact absurd hM hm
        | succ k =>
          exact ⟨k, by omega, by rw [show i + 1 + k = i + (k + 1) by omega]; exact hM⟩

lemma sizeT_bound (u p : List Char) (hle : u.length ≤ p.length)
    (hsz : p.length < sizeTMod) :
    (p.length + sizeTMod - u.length) % sizeTMod = p.length - u.length := by
  have h1 : p.length + sizeTMod - u.length = (p.length - u.length) + sizeTMod := by
    omega
  rw [h1, Nat.add_mod_right, Nat.mod_eq_of_lt (by omega)]

lemma containsUsernameE_ok (u p : List Char) (hu : u ≠ [])
    (hle : u.length ≤ p.length) (hsz : p.length < sizeTMod) :
    (containsUsernameE u p = .ok true ↔ ciSubstring u p) ∧
      ∀ e, containsUsernameE u p ≠ .error e := by
  have hul : 0 < u.length := List.length_pos.mpr hu
  unfold containsUsernameE
  rw [if_neg (by omega), sizeT_bound u p hle hsz]
  have hs := scanFrom_ok u p hle (p.length - u.length + 1) 0 (by omega)
  refine ⟨?_, hs.2⟩
  rw [hs.1]
  unfold ciSubstring
  constructor
  · rintro ⟨k, -, hM⟩
    exact ⟨k, by simpa using hM⟩
  · rintro ⟨i, hM⟩
    have hlen : (((p.drop i).take u.length).map tolowerC).length =
        (u.map tolowerC).length := by rw [hM]
    simp [List.length_map, List.length_take, List.length_drop] at hlen
    exact ⟨i, by omega, by simpa using hM⟩

lemma containsUsernameE_ok_false_iff (u p : List Char) (hu : u ≠ [])
    (hle : u.length ≤ p.length) (hsz : p.length < sizeTMod) :
    containsUsernameE u p = .ok false ↔ ¬ ciSubstring u p := by
  rcases containsUsernameE_ok u p hu hle hsz with ⟨hiff, herr⟩
  constructor
  · intro h hci
    have h2 := hiff.mpr hci
    rw [h] at h2
    simp at h2
  · intro h
    cases hcu : containsUsernameE u p with
    | error e => exact absurd hcu (herr e)
    | ok b =>
      cases b with
      | false => rfl
      | true => exact absurd (hiff.mp hcu) h

/-! Boolean-level characterisation of the two policies. -/

lemma isStrongPassword_ok_true_iff (u p : List Char) :
    isStrongPassword u p = .ok true ↔
      (hasMinimumLength p = true ∧ hasUpper p = true ∧ hasLower p = true ∧
        hasDigit p = true ∧ isAlphanumericOnly p = true ∧
        containsString p = true ∧ containsUsernameE u p = .ok false) := by
  unfold isStrongPassword
  split_ifs with h1 h2 h3 h4
  · simp only [Bool.not_eq_true'] at h1
    simp [h1]
  · constructor
    · intro h; simp at h
    · rintro ⟨-, hup, hlo, hdi, -⟩
      rw [hup, hlo, hdi] at h2
      simp at h2
  · simp only [Bool.not_eq_true'] at h3
    simp [h3]
  · simp only [Bool.not_eq_true'] at h4
    simp [h4]
  · have h1' : hasMinimumLength p = true := by
      cases he : hasMinimumLength p
      · rw [he] at h1; simp at h1
      · rfl
    have hup : hasUpper p = true := by
      cases he : hasUpper p
      · rw [he] at h2; simp at h2
      · rfl
    have hlo : hasLower p = true := by
      cases he : hasLower p
      · rw [he] at h2; simp at h2
      · rfl
    have hdi : hasDigit p = true := by
      cases he : hasDigit p
      · rw [he] at h2; simp at h2
      · rfl
    have h3' : isAlphanumericOnly p = true := by
      cases he : isAlphanumericOnly p
      · rw [he] at h3; simp at h3
      · rfl
    have h4' : containsString p = true := by
      cases he : containsString p
      · rw [he] at h4; simp at h4
      · rfl
    cases hcu : containsUsernameE u p with
    | error e => simp [hcu, h1', hup, hlo, hdi, h3', h4']
    | ok b => cases b <;> simp [hcu, h1', hup, hlo, hdi, h3', h4']

lemma isStrongDefaultPassword_true_iff (u p : List Char) :
    isStrongDefaultPassword u p = true ↔
      (p.length ≤ 15 ∧ hasUpper p = true ∧ hasLower p = true ∧
        hasDigit p = true ∧ isAlphanumericOnly p = true) := by
  unfold isStrongDefaultPassword
  split_ifs with h1 h2 h3
  · constructor
    · intro h; simp at h
    · rintro ⟨hl, -⟩; omega
  · constructor
    · intro h; simp at h
    · rintro ⟨-, hup, hlo, hdi, -⟩
      rw [hup, hlo, hdi] at h2
      simp at h2
  · simp only [Bool.not_eq_true'] at h3
    simp [h3]
  · have hup : hasUpper p = true := by
      cases he : hasUpper p
      · rw [he] at h2; simp at h2
      · rfl
    have hlo : hasLower p = true := by
      cases he : hasLower p
      · rw [he] at h2; simp at h2
      · rfl
    have hdi : hasDigit p = true := by
      cases he : hasDigit p
      · rw [he] at h2; simp at h2
      · rfl
    have h3' : isAlphanumericOnly p = true := by
      cases he : isAlphanumericOnly p
      · rw [he] at h3; simp at h3
      · rfl
    simp [hup, hlo, hdi, h3']
    omega

/-! Claim theorems. -/

/-- C1, counterexample: for the empty username the claimed equivalence
fails: `isStrongPassword("", "Abcd1234")` is true, yet `"Abcd1234"`
trivially contains the empty string as a (case-insensitive) substring, so
the claimed right-hand side is false. -/
theorem claim1_counterexample :
    ¬ (isStrongPassword [] "Abcd1234".data = .ok true ↔
        strongSpec [] "Abcd1234".data) := by
  intro h
  have h2 := h.mp (by decide)
  exact h2.2.2.2.2.2.2 ⟨0, rfl⟩

/-- C1 (amended): for every nonempty username `u` no longer than the
password `p`, with `p` within `size_t` range, `isStrongPassword(u, p)`
returns true iff `p` has length ≥ 8, contains an uppercase letter, a
lowercase letter and a digit, consists only of alphanumeric characters,
contains a contiguous run of at least 4 letters, and does not contain `u`
as a case-insensitive substring. -/
theorem claim1_strong_iff (u p : List Char) (hu : u ≠ [])
    (hle : u.length ≤ p.length) (hsz : p.length < sizeTMod) :
    isStrongPassword u p = .ok true ↔ strongSpec u p := by
  rw [isStrongPassword_ok_true_iff]
  unfold strongSpec
  rw [hasMinimumLength_iff, hasUpper_iff, hasLower_iff, hasDigit_iff,
    isAlphanumericOnly_iff, containsString_iff,
    containsUsernameE_ok_false_iff u p hu hle hsz]

/-- C1, witness: the amended equivalence instantiated at username `"xy"`
and password `"Abcd1234"`. -/
theorem claim1_witness :
    ("xy".data ≠ ([] : List Char)) ∧
      "xy".data.length ≤ "Abcd1234".data.length ∧
      "Abcd1234".data.length < sizeTMod ∧
      (isStrongPassword "xy".data "Abcd1234".data = .ok true ↔
        strongSpec "xy".data "Abcd1234".data) :=
  ⟨by decide, by decide, by decide,
    claim1_strong_iff _ _ (by decide) (by decide) (by decide)⟩

/-- C2: `isStrongDefaultPassword(u, p)` is true iff `p` has length ≤ 15,
contains an uppercase letter, a lowercase letter and a digit, and consists
only of alphanumeric characters; the username has no effect. -/
theorem claim2_default_iff :
    (∀ u p : List Char, isStrongDefaultPassword u p = true ↔ defaultSpec p) ∧
      ∀ (p u1 u2 : List Char),
        isStrongDefaultPassword u1 p = isStrongDefaultPassword u2 p := by
  constructor
  · intro u p
    rw [isStrongDefaultPassword_true_iff]
    unfold defaultSpec
    rw [hasUpper_iff, hasLower_iff, hasDigit_iff, isAlphanumericOnly_iff]
  · intro p u1 u2
    rfl

/-- C3: every output of `generateDefaultPassword(u)` — a candidate of
1–15 characters from `validCharacters` at which the `do … while` loop
exits — satisfies the Default policy and has length in `[1, 15]`. -/
theorem claim3_generated (u g : List Char) (h : generatedOutput u g) :
    isStrongDefaultPassword u g = true ∧ 1 ≤ g.length ∧ g.length ≤ 15 := by
  rcases h with ⟨⟨-, h1, h15⟩, hok⟩
  exact ⟨hok, h1, h15⟩

/-- C3, witness: the postcondition instantiated at the empty username and
the generable password `"aA1"`. -/
theorem claim3_witness :
    generatedOutput [] "aA1".data ∧
      (isStrongDefaultPassword [] "aA1".data = true ∧
        1 ≤ "aA1".data.length ∧ "aA1".data.length ≤ 15) := by
  have hgen : generatedOutput [] "aA1".data := by
    unfold generatedOutput generatedCandidate
    exact ⟨⟨by decide, by decide, by decide⟩, by decide⟩
  exact ⟨hgen, claim3_generated [] "aA1".data hgen⟩

/-- C4: the code violates the claim.  With username `"ab"` and password
`"a"`, `strlen(password) - strlen(username)` wraps around in `size_t`, the
loop does not stop, and the scan reads `password[2]`, past the
terminator: an out-of-bounds access instead of returning false. -/
theorem claim4_oob : containsUsernameE "ab".data "a".data = .error () := by
  decide

/-- C5, counterexample: `"nobody"` does not contain `"bob"` — the scan
returns false, while the claim asserts it returns true. -/
theorem claim5_counterexample :
    containsUsernameE "Bob".data "nobody".data = .ok false := by decide

/-- C5 (amended): `containsUsername("Bob", "I know bob smith")` returns
true, and `containsUsername("Bob", "nobody")` returns false. -/
theorem claim5_examples :
    containsUsernameE "Bob".data "I know bob smith".data = .ok true ∧
      containsUsernameE "Bob".data "nobody".data = .ok false := by
  exact ⟨by decide, by decide⟩

/-- C6: with an empty username, `containsUsername` returns false for
every password. -/
theorem claim6_empty_username :
    ∀ p : List Char, containsUsernameE [] p = .ok false := fun _ => rfl

/-- C7: `containsString(p)` is true iff `p` has a contiguous run of at
least 4 letters; in particular it accepts `"ab1cdef"` and rejects
`"ab1cde"`. -/
theorem claim7_run_iff :
    (∀ p : List Char, containsString p = true ↔ specRun4 p) ∧
      containsString "ab1cdef".data = true ∧
      containsString "ab1cde".data = false :=
  ⟨containsString_iff, by decide, by decide⟩

/-- C8: the code violates the totality claim at `containsUsername`: with
username `"xy"` and the empty password the scan reads past the end of the
password (out of bounds) instead of returning a boolean.  The remaining
conjuncts record the claimed behaviour that does hold: a non-ASCII byte
(here 200) matches no character class, and every classifier is defined on
the empty string. -/
theorem claim8_totality_gap :
    containsUsernameE "xy".data [] = .error () ∧
      isupperC (Char.ofNat 200) = false ∧ islowerC (Char.ofNat 200) = false ∧
      isdigitC (Char.ofNat 200) = false ∧ isalphaC (Char.ofNat 200) = false ∧
      isalnumC (Char.ofNat 200) = false ∧
      hasUpper [] = false ∧ hasLower [] = false ∧ hasDigit [] = false ∧
      hasMinimumLength [] = false ∧ isAlphanumericOnly [] = true ∧
      containsString [] = false := by
  decide

/-- C9: a password accepted by the Strong policy that is at most 15
characters long is accepted by the Default policy. -/
theorem claim9_strong_implies_default (u p : List Char)
    (hs : isStrongPassword u p = .ok true) (hlen : p.length ≤ 15) :
    isStrongDefaultPassword u p = true := by
  rcases (isStrongPassword_ok_true_iff u p).mp hs with ⟨-, hup, hlo, hdi, hal, -, -⟩
  exact (isStrongDefaultPassword_true_iff u p).mpr ⟨hlen, hup, hlo, hdi, hal⟩

/-- C9, witness: instantiated at username `"ab"` and password
`"Xyzw1234"`. -/
theorem claim9_witness :
    isStrongPassword "ab".data "Xyzw1234".data = .ok true ∧
      "Xyzw1234".data.length ≤ 15 ∧
      isStrongDefaultPassword "ab".data "Xyzw1234".data = true :=
  ⟨by decide, by decide,
    claim9_strong_implies_default _ _ (by decide) (by decide)⟩

/-- C10: both policies reject the empty password, for every username;
`isAlphanumericOnly` is vacuously true on it while `hasUpper` fails. -/
theorem claim10_empty_rejected :
    ∀ u : List Char,
      isStrongPassword u [] = .ok false ∧ isStrongDefaultPassword u [] = false ∧
        isAlphanumericOnly [] = true ∧ hasUpper [] = false :=
  fun _ => ⟨rfl, rfl, rfl, rfl⟩

end PasswordStrength
